import Mathlib

/-!
A shallow embedding of the generic data structures of `src/commons.h`
(the dynamic array family `gen_dyn`, the open-addressed hash map family
`gen_map`, and the `hash_djb2` string hash), together with theorems about
the behaviour of the embedded operations.

Modelling conventions:
* The macro-generated C families become Lean definitions parameterised by
  the element types.
* `calloc` produces a buffer of `default` values (`Inhabited`), matching
  all-zero initialisation (`active = false`, numeric `0`).
* `size_t` values are modelled as `Nat`; wrap-around is written out as
  `% USZ` exactly where the C computation can wrap and the wrap is
  observable (shifts and sums in `hash_djb2`, the `index - 1` store in
  `dyn_remove_`).  The counters `len` and `active_count` change by at most
  one per operation and are modelled as plain naturals.
* Struct fields that hold function pointers are modelled as `Option`;
  calling a null pointer is the distinguished outcome `Res.nullCall`.
* Unbounded C `while` loops take a fuel argument; `Res.spin` means the
  fuel ran out, so a result of `.spin` for every fuel models divergence.
-/

namespace Commons

/-- size_t arithmetic is modulo `2 ^ 64` (LP64). -/
def USZ : Nat := 2 ^ 64

/-- outcome of running an embedded C function: `ok` is the returned value,
`nullCall` means a null function pointer was invoked (the C program
crashes), `spin` means the fuel bounding a C `while` loop ran out. -/
inductive Res (α : Type) where
  | spin : Res α
  | nullCall : Res α
  | ok : α → Res α
deriving Repr

/-- the C `option_T` struct: `{bool ok; T value;}`. -/
structure coption (T : Type) where
  ok : Bool
  value : T
deriving Repr, DecidableEq

/-- the C `dyn_T` struct: a buffer of `cap` allocated slots of which the
first `len` are live.  `buf` models the whole allocation, so
`buf.length = cap` for every buffer the C code can build. -/
structure dyn (T : Type) where
  buf : List T
  len : Nat
  cap : Nat
deriving Repr, DecidableEq

/-- `dyn_init_with_cap_T`: `calloc` gives `cap` zeroed slots. -/
def dyn_init_with_cap (T : Type) [Inhabited T] (cap : Nat) : dyn T :=
  { buf := List.replicate cap default, len := 0, cap := cap }

/-- `dyn_at_T`: bounds-checked read; the C failure branch zero-initialises
`.value`, modelled by `default`. -/
def dyn_at {T : Type} [Inhabited T] (self : dyn T) (index : Nat) : coption T :=
  if self.len ≤ index then { ok := false, value := default }
  else { ok := true, value := self.buf.getD index default }

/-- one pass of the loop of `dyn_remove_T`, recursing on the number of
remaining iterations:
`for (; index + 1 < self->len; index++) { self->buf[index - 1] = self->buf[index]; }`
iterates exactly `len - (index + 1)` times.  The store address is
`index - 1` in `size_t` arithmetic, exactly as in the source; for
`index = 0` that address is `2^64 - 1`, outside the allocation (the C
behaviour is undefined there; the model makes the store a no-op since
`List.set` ignores out-of-range indices). -/
def removeGo {T : Type} [Inhabited T] (buf : List T) (index : Nat) : Nat → List T
  | 0 => buf
  | n + 1 =>
    removeGo (buf.set ((index + (USZ - 1)) % USZ) (buf.getD index default)) (index + 1) n

/-- the loop of `dyn_remove_T` expressed via its iteration count. -/
def removeLoop {T : Type} [Inhabited T] (buf : List T) (index len : Nat) : List T :=
  removeGo buf index (len - (index + 1))

/-- `dyn_remove_T`: the option returned and the array after the call. -/
def dyn_remove {T : Type} [Inhabited T] (self : dyn T) (index : Nat) :
    coption T × dyn T :=
  let elem := dyn_at self index
  if !elem.ok then (elem, self)
  else
    (elem, { self with buf := removeLoop self.buf index self.len, len := self.len - 1 })

/-- a buffer slot that may be uninitialised (`malloc` memory): `none` means
no complete `T` value has been stored there. -/
structure dynU (T : Type) where
  buf : List (Option T)
  len : Nat
  cap : Nat
deriving Repr, DecidableEq

/-- `dyn_clone_T`:
`T* buf = malloc(sizeof(T) * self->cap); memcpy(buf, self->buf, self->len);`.
`malloc` yields `cap` uninitialised slots; the `memcpy` copies
`self->len` BYTES, i.e. `self.len / elemSize` complete elements of `T`
(with `elemSize = sizeof(T)`); every later slot of the fresh allocation
stays uninitialised. -/
def dyn_clone {T : Type} [Inhabited T] (elemSize : Nat) (self : dyn T) : dynU T :=
  let copied := self.len / elemSize
  { buf := (List.range self.cap).map
      (fun i => if i < copied then some (self.buf.getD i default) else none)
  , len := self.len
  , cap := self.cap }

/-- the value of the `char` read `str[i]` converted to `size_t`: `char` is
signed on the reference ABI (x86-64 SysV), so a byte `b ≥ 128` contributes
`b - 256`, which converts to `2^64 - 256 + b` as a `size_t`. -/
def charToSize (b : Nat) : Nat :=
  if b < 128 then b else USZ - 256 + b

/-- `strlen`: number of bytes before the first `0`. -/
def cstrlen (l : List Nat) : Nat :=
  (l.takeWhile (fun b => !(b == 0))).length

/-- the loop body accumulation of `hash_djb2`, iterating over the bytes
the `for` loop visits.  Each C operation is a `size_t` operation and wraps:
`hash << 5` wraps, the two additions wrap.  The redundant
`if (str[i] == 0) break;` of the source is kept. -/
def djb2Go (l : List Nat) (h : Nat) : Nat :=
  match l with
  | [] => h
  | b :: rest =>
    if b == 0 then h
    else djb2Go rest (((h * 32 % USZ + h) % USZ + charToSize b) % USZ)

/-- `hash_djb2`: `hash = 5381`, then for each byte before the terminator,
`hash = ((hash << 5) + hash) + str[i]` in `size_t` arithmetic.  The input
list models the bytes of the C string starting at the pointer. -/
def hash_djb2 (str : List Nat) : Nat :=
  djb2Go (str.take (cstrlen str)) 5381

/-- the C `map_entry_K_V` struct: `{K key; V value; bool active;}`. -/
structure map_entry (K V : Type) where
  key : K
  value : V
  active : Bool
deriving Repr, DecidableEq

/-- the zero-initialised entry produced by `calloc`: `active = false`. -/
instance (K V : Type) [Inhabited K] [Inhabited V] : Inhabited (map_entry K V) :=
  ⟨{ key := default, value := default, active := false }⟩

/-- the C `map_K_V` struct.  The `hash` and `key_compare` members are
function pointers; `none` models a null pointer. -/
structure map (K V : Type) where
  entries : dyn (map_entry K V)
  active_count : Nat
  hash : Option (K → Nat)
  key_compare : Option (K → K → Bool)

/-- `map_init_K_V`: a zeroed backing buffer of capacity 97 and the two
supplied function pointers. -/
def map_init {K V : Type} [Inhabited K] [Inhabited V]
    (hash : K → Nat) (key_compare : K → K → Bool) : map K V :=
  { entries := dyn_init_with_cap (map_entry K V) 97
  , active_count := 0
  , hash := some hash
  , key_compare := some key_compare }

/-- result of the probe loop shared textually by `map_insert_K_V`,
`map_update_K_V` and `map_remove_K_V`:
`while (self->entries.buf[index].active) { if (self->key_compare(self->entries.buf[index].key, key)) ...; index = (index + 1) % cap; }`.
`found i` is an exit at an active slot `i` whose key compares equal,
`free i` an exit at an inactive slot `i`, `null` a call through a null
`key_compare` pointer, `spin` exhausted fuel. -/
inductive Probe where
  | spin : Probe
  | null : Probe
  | found : Nat → Probe
  | free : Nat → Probe
deriving Repr, DecidableEq

/-- the shared probe loop; one unit of fuel per iteration. -/
def probeLoop {K V : Type} [Inhabited K] [Inhabited V] (eqc : Option (K → K → Bool))
    (buf : List (map_entry K V)) (cap : Nat) (k : K) : Nat → Nat → Probe
  | _, 0 => .spin
  | idx, fuel + 1 =>
    let e := buf.getD idx default
    if e.active then
      match eqc with
      | none => .null
      | some f =>
        if f e.key k then .found idx
        else probeLoop eqc buf cap k ((idx + 1) % cap) fuel
    else .free idx

/-- the `new_map` built at the top of `map_resize_K_V`: the designated
initialiser names only `.entries` and `.active_count`, so the `hash` and
`key_compare` members are zero-initialised: null function pointers,
modelled by `none`. -/
def resizeFresh (K V : Type) [Inhabited K] [Inhabited V] (oldCap : Nat) : map K V :=
  { entries := dyn_init_with_cap (map_entry K V) (oldCap * 2 + 1)
  , active_count := 0
  , hash := none
  , key_compare := none }

mutual

/-- `map_insert_K_V`.  When `active_count >= entries.cap` the table is
resized first (the body of `map_resize_K_V` is written inline here so the
mutual recursion is structural on the fuel; `map_resize` below is the
same expression); then `index = hash(key) % cap`, and the probe loop
either rejects a duplicate key (returns `false`) or installs the entry at
the first inactive slot probed and increments `active_count`. -/
def map_insert {K V : Type} [Inhabited K] [Inhabited V] :
    Nat → map K V → K → V → Res (Bool × map K V)
  | 0, _, _, _ => .spin
  | fuel + 1, m, k, v =>
    match (if m.entries.cap ≤ m.active_count then
            resizeLoop fuel m.entries.buf (resizeFresh K V m.entries.cap)
          else .ok m) with
    | .spin => .spin
    | .nullCall => .nullCall
    | .ok m1 =>
      match m1.hash with
      | none => .nullCall
      | some hf =>
        match probeLoop m1.key_compare m1.entries.buf m1.entries.cap k
            (hf k % m1.entries.cap) (fuel + 1) with
        | .spin => .spin
        | .null => .nullCall
        | .found _ => .ok (false, m1)
        | .free idx =>
          .ok (true,
            { m1 with
              entries :=
                { m1.entries with
                  buf := m1.entries.buf.set idx { key := k, value := v, active := true } }
              active_count := m1.active_count + 1 })
termination_by structural fuel _m _k _v => fuel

/-- the re-insertion loop of `map_resize_K_V` over the old backing buffer
(`for (size_t i = 0; i < self->entries.cap; i++) if (...active) map_insert(...)`),
one unit of fuel per visited slot; the Boolean result of the inner insert
is discarded exactly as in the source. -/
def resizeLoop {K V : Type} [Inhabited K] [Inhabited V] :
    Nat → List (map_entry K V) → map K V → Res (map K V)
  | _, [], acc => .ok acc
  | 0, _ :: _, _ => .spin
  | fuel + 1, e :: rest, acc =>
    if e.active then
      match map_insert fuel acc e.key e.value with
      | .spin => .spin
      | .nullCall => .nullCall
      | .ok (_, acc1) => resizeLoop fuel rest acc1
    else resizeLoop fuel rest acc
termination_by structural fuel _l _acc => fuel

end

/-- `map_resize_K_V`: build `new_map` (with its null `hash` and
`key_compare`), re-insert every active entry of the old buffer in backing
order, release the old buffer and replace `*self` with `new_map`. -/
def map_resize {K V : Type} [Inhabited K] [Inhabited V] (fuel : Nat) (m : map K V) :
    Res (map K V) :=
  resizeLoop fuel m.entries.buf (resizeFresh K V m.entries.cap)

/-- the bounded probe loop of `map_get_K_V`
(`for (size_t i = 0; i < self->entries.cap; i++) { ... }`), returning the
final value of `index`; it runs at most `cap` iterations and mutates
nothing. -/
def getLoop {K V : Type} [Inhabited K] [Inhabited V] (eqc : Option (K → K → Bool))
    (buf : List (map_entry K V)) (cap : Nat) (k : K) : Nat → Nat → Res Nat
  | idx, 0 => .ok idx
  | idx, i + 1 =>
    let e := buf.getD idx default
    if e.active then
      match eqc with
      | none => .nullCall
      | some f =>
        if f e.key k then .ok idx
        else getLoop eqc buf cap k ((idx + 1) % cap) i
    else .ok idx

/-- `map_get_K_V`: probe from `hash(key) % cap` for at most `cap` steps,
then re-test the final slot (`active && key_compare`, short-circuit); a
hit returns a copy of the entry, a miss returns `{.ok = false}` with a
zero-initialised value.  The function reads the table and never writes
it. -/
def map_get {K V : Type} [Inhabited K] [Inhabited V] (m : map K V) (k : K) :
    Res (coption (map_entry K V)) :=
  match m.hash with
  | none => .nullCall
  | some hf =>
    match getLoop m.key_compare m.entries.buf m.entries.cap k
        (hf k % m.entries.cap) m.entries.cap with
    | .spin => .spin
    | .nullCall => .nullCall
    | .ok idx =>
      let e := m.entries.buf.getD idx default
      if e.active then
        match m.key_compare with
        | none => .nullCall
        | some f =>
          if f e.key k then .ok { ok := true, value := e }
          else .ok { ok := false, value := default }
      else .ok { ok := false, value := default }

/-- `map_update_K_V`: probe with the same unbounded while loop as
`map_insert`; on a match overwrite only the value member and return
`true`; when the loop exits at an inactive slot return `false` without
mutating. -/
def map_update {K V : Type} [Inhabited K] [Inhabited V] (fuel : Nat) (m : map K V)
    (k : K) (v : V) : Res (Bool × map K V) :=
  match m.hash with
  | none => .nullCall
  | some hf =>
    match probeLoop m.key_compare m.entries.buf m.entries.cap k
        (hf k % m.entries.cap) fuel with
    | .spin => .spin
    | .null => .nullCall
    | .free _ => .ok (false, m)
    | .found i =>
      let e := m.entries.buf.getD i default
      .ok (true,
        { m with
          entries := { m.entries with buf := m.entries.buf.set i { e with value := v } } })

/-- `map_remove_K_V`: probe with the same unbounded while loop; on a match
clear the active flag and decrement `active_count` (the decrement happens
only after an active slot was found, so a table whose count is an actual
count of active slots has `active_count >= 1` here). -/
def map_remove {K V : Type} [Inhabited K] [Inhabited V] (fuel : Nat) (m : map K V)
    (k : K) : Res (Bool × map K V) :=
  match m.hash with
  | none => .nullCall
  | some hf =>
    match probeLoop m.key_compare m.entries.buf m.entries.cap k
        (hf k % m.entries.cap) fuel with
    | .spin => .spin
    | .null => .nullCall
    | .free _ => .ok (false, m)
    | .found i =>
      let e := m.entries.buf.getD i default
      .ok (true,
        { m with
          entries := { m.entries with buf := m.entries.buf.set i { e with active := false } }
          active_count := m.active_count - 1 })

/-- iterate `map_insert` over a list of key/value pairs with a fixed fuel,
counting the inserts that return `true`: the scenario harness for the
insertion-sequence properties of the specification. -/
def insertAll {K V : Type} [Inhabited K] [Inhabited V] (fuel : Nat) :
    map K V → List (K × V) → Nat → Res (Nat × map K V)
  | m, [], n => .ok (n, m)
  | m, (k, v) :: rest, n =>
    match map_insert fuel m k v with
    | .spin => .spin
    | .nullCall => .nullCall
    | .ok (b, m1) => insertAll fuel m1 rest (if b then n + 1 else n)

/-- capacity of the table carried by an `ok` result of `insertAll`
(`0` for a crash or exhausted fuel). -/
def capOfRes {K V : Type} (r : Res (Nat × map K V)) : Nat :=
  match r with
  | .ok (_, m) => m.entries.cap
  | _ => 0

/-- table carried by an `ok` result of a mutating map operation, or the
fallback table. -/
def mapOfRes {K V : Type} (r : Res (Bool × map K V)) (d : map K V) : map K V :=
  match r with
  | .ok (_, m) => m
  | _ => d

/-- number of active slots in a backing buffer. -/
def countActive {K V : Type} (buf : List (map_entry K V)) : Nat :=
  buf.countP (fun e => e.active)

/-- number of active slots whose key compares equal to `k` under `eqf`. -/
def countKeySlots {K V : Type} (buf : List (map_entry K V)) (eqf : K → K → Bool)
    (k : K) : Nat :=
  buf.countP (fun e => e.active && eqf e.key k)

/-- the hash accumulation exactly as the specification words it: starting
from `h = 5381`, for each input byte in order `h = h * 33 + byte`, in
unsigned machine-word arithmetic (modulo `2 ^ 64`). -/
def djb2_spec (str : List Nat) : Nat :=
  str.foldl (fun h b => (h * 33 + b) % USZ) 5381

/-- the entry met at the e-th step of a probe sequence that starts at
`start` and wraps modulo `cap`. -/
def slotAt {K V : Type} [Inhabited K] [Inhabited V] (buf : List (map_entry K V))
    (cap start e : Nat) : map_entry K V :=
  buf.getD ((start + e) % cap) default

/-- the keys of the pairs are pairwise distinct in the sense of the
supplied comparison function (both orders, since the probe loops compare
stored key against probe key). -/
def keysDistinct {K V : Type} (eqf : K → K → Bool) (ps : List (K × V)) : Prop :=
  List.Pairwise (fun p q => eqf p.1 q.1 = false ∧ eqf q.1 p.1 = false) ps

/-- the supplied comparison function recognises each of the keys as equal
to itself (consequence of it being an equivalence, as the specification
requires). -/
def keysRefl {K V : Type} (eqf : K → K → Bool) (ps : List (K × V)) : Prop :=
  ∀ p, p ∈ ps → eqf p.1 p.1 = true

/-- state invariant tying a table to the list `done` of key/value pairs
inserted so far (in order, no removals): the function pointers are intact,
the buffer has its capacity, `active_count` agrees with both the number of
inserts and the number of active slots, every active slot holds one of the
inserted pairs, and every inserted pair sits at the end of a probe path
from its hash position consisting of active slots with non-equal keys. -/
structure TableGood {K V : Type} [Inhabited K] [Inhabited V] (hf : K → Nat)
    (eqf : K → K → Bool) (cap : Nat) (m : map K V) (done : List (K × V)) : Prop where
  hhash : m.hash = some hf
  heqc : m.key_compare = some eqf
  hcap : m.entries.cap = cap
  hlen : m.entries.buf.length = cap
  hpos : 0 < cap
  hcount : m.active_count = done.length
  hcountA : countActive m.entries.buf = done.length
  hrepr : ∀ i, i < cap → (m.entries.buf.getD i default).active = true →
    ∃ p, p ∈ done ∧ m.entries.buf.getD i default = { key := p.1, value := p.2, active := true }
  hpath : ∀ p, p ∈ done → ∃ d, d < cap ∧
    slotAt m.entries.buf cap (hf p.1 % cap) d = { key := p.1, value := p.2, active := true } ∧
    ∀ e, e < d → (slotAt m.entries.buf cap (hf p.1 % cap) e).active = true ∧
      eqf (slotAt m.entries.buf cap (hf p.1 % cap) e).key p.1 = false

/-- identity hash on naturals, used in the concrete scenarios. -/
def idHash : Nat → Nat := fun n => n

/-- decidable equality on naturals as the key compare function of the
concrete scenarios. -/
def beqN : Nat → Nat → Bool := fun a b => a == b

/-- a hash function sending every key to bucket 0, used to build probe
collisions in the concrete scenarios. -/
def zeroHash : Nat → Nat := fun _ => 0

/-- the 97 key/value pairs `(i, i + 1000)` of the growth scenario. -/
def pairs97 : List (Nat × Nat) := (List.range 97).map (fun i => (i, i + 1000))

/-- the table reached from a fresh capacity-97 table by `insert 1`,
`insert 2`, `remove 1`, all keys hashing to bucket 0. -/
def c8m3 : map Nat Nat :=
  let m0 : map Nat Nat := map_init zeroHash beqN
  let m1 := mapOfRes (map_insert 97 m0 1 10) m0
  let m2 := mapOfRes (map_insert 97 m1 2 20) m1
  mapOfRes (map_remove 97 m2 1) m2

/-- the table `c8m3` after one more `insert 2` (the same key 2 again). -/
def c8m4 : map Nat Nat := mapOfRes (map_insert 97 c8m3 2 99) c8m3

/-- a full capacity-3 table holding keys 0, 1, 2 at their hash slots:
the state reached by inserting those three keys into a capacity-3 table
under the identity hash. -/
def fullT3 : map Nat Nat :=
  { entries :=
      { buf := [ { key := 0, value := 5, active := true }
               , { key := 1, value := 6, active := true }
               , { key := 2, value := 7, active := true } ]
      , len := 0
      , cap := 3 }
  , active_count := 3
  , hash := some idHash
  , key_compare := some beqN }

/-- a capacity-2 table with the single key 1 under the constant-0 hash,
used to exercise the duplicate-key failure path of `map_insert`. -/
def dupT : map Nat Nat :=
  { entries :=
      { buf := [ { key := 1, value := 10, active := true }, default ]
      , len := 0
      , cap := 2 }
  , active_count := 1
  , hash := some zeroHash
  , key_compare := some beqN }

theorem getD_set_self {α : Type _} {l : List α} {i : Nat} (h : i < l.length) (a d : α) :
    (l.set i a).getD i d = a := by
  rw [List.getD_eq_getElem?_getD, List.getElem?_set_self h]
  rfl

theorem getD_set_ne {α : Type _} {l : List α} {i j : Nat} (h : i ≠ j) (a d : α) :
    (l.set i a).getD j d = l.getD j d := by
  rw [List.getD_eq_getElem?_getD, List.getElem?_set_ne h, ← List.getD_eq_getElem?_getD]

theorem countP_set_balance {α : Type _} (p : α → Bool) (d : α) :
    ∀ (l : List α) (i : Nat), i < l.length → ∀ a : α,
      (l.set i a).countP p + (if p (l.getD i d) then 1 else 0)
        = l.countP p + (if p a then 1 else 0) := by
  intro l
  induction l with
  | nil => intro i h; simp at h
  | cons x xs ih =>
    intro i h a
    cases i with
    | zero =>
      simp only [List.set_cons_zero, List.getD_cons_zero, List.countP_cons]
      split_ifs <;> omega
    | succ n =>
      simp only [List.set_cons_succ, List.getD_cons_succ, List.countP_cons]
      have hn : n < xs.length := by simpa using h
      have := ih n hn a
      split_ifs at * <;> omega

theorem exists_false_of_countP_lt {α : Type _} (p : α → Bool) (d : α) :
    ∀ l : List α, l.countP p < l.length → ∃ i, i < l.length ∧ p (l.getD i d) = false := by
  intro l
  induction l with
  | nil => simp
  | cons x xs ih =>
    intro h
    cases hx : p x with
    | false => exact ⟨0, by simp, by simpa [List.getD_cons_zero] using hx⟩
    | true =>
      have hlt : xs.countP p < xs.length := by
        simp only [List.countP_cons, List.length_cons, hx, if_pos] at h
        omega
      obtain ⟨i, hi, hpi⟩ := ih hlt
      exact ⟨i + 1, by simpa using hi, by simpa [List.getD_cons_succ] using hpi⟩

theorem default_entry_active (K V : Type) [Inhabited K] [Inhabited V] :
    (default : map_entry K V).active = false := rfl

theorem countActive_replicate (K V : Type) [Inhabited K] [Inhabited V] (n : Nat) :
    countActive (List.replicate n (default : map_entry K V)) = 0 := by
  induction n with
  | zero => rfl
  | succ n ih =>
    simp only [countActive, List.replicate_succ, List.countP_cons,
      default_entry_active] at *
    simpa using ih

theorem djb2Go_foldl : ∀ (l : List Nat) (h : Nat), (∀ b ∈ l, b ≠ 0) →
    djb2Go l h = l.foldl (fun h b => (h * 33 + charToSize b) % USZ) h := by
  intro l
  induction l with
  | nil => intro h _; rfl
  | cons b rest ih =>
    intro h hmem
    have hb : b ≠ 0 := hmem b (List.mem_cons_self b rest)
    have hbeq : (b == 0) = false := by simpa using hb
    have hstep : ((h * 32 % USZ + h) % USZ + charToSize b) % USZ
        = (h * 33 + charToSize b) % USZ := by
      rw [Nat.mod_add_mod, Nat.add_assoc, Nat.mod_add_mod]
      congr 1
      omega
    simp only [djb2Go, hbeq, Bool.false_eq_true, if_false, List.foldl_cons, hstep]
    exact ih _ (fun b hb => hmem b (List.mem_cons_of_mem _ hb))

theorem hash_djb2_eq_takeWhile_foldl (str : List Nat) :
    hash_djb2 str = (str.takeWhile (fun b => !(b == 0))).foldl
      (fun h b => (h * 33 + charToSize b) % USZ) 5381 := by
  have hpre : str.takeWhile (fun b => !(b == 0)) <+: str := List.takeWhile_prefix _
  have htake : str.take (cstrlen str) = str.takeWhile (fun b => !(b == 0)) := by
    unfold cstrlen
    exact (List.prefix_iff_eq_take.mp hpre).symm
  unfold hash_djb2
  rw [htake]
  refine djb2Go_foldl _ 5381 (fun b hb => ?_)
  have := List.mem_takeWhile_imp hb
  simpa using this

theorem foldl_charToSize_small : ∀ (l : List Nat) (h : Nat), (∀ b ∈ l, b < 128) →
    l.foldl (fun h b => (h * 33 + charToSize b) % USZ) h
      = l.foldl (fun h b => (h * 33 + b) % USZ) h := by
  intro l
  induction l with
  | nil => intro h _; rfl
  | cons b rest ih =>
    intro h hmem
    have hb : b < 128 := hmem b (List.mem_cons_self b rest)
    simp only [List.foldl_cons, charToSize, if_pos hb]
    exact ih _ (fun x hx => hmem x (List.mem_cons_of_mem _ hx))

/-- claim C3 (code_bug): removing index 1 from the live elements
`[10, 20, 30, 40]` should yield `[10, 30, 40]` (shift everything after the
index left by one, earlier elements untouched), but the loop of
`dyn_remove` stores to `buf[index - 1]`, so the element *before* the
removed index is overwritten and the live elements become `[20, 30, 30]`:
the returned option is correct but the array contents contradict the
claim. -/
theorem dyn_remove_clobbers_predecessor :
    dyn_remove (dyn.mk [10, 20, 30, 40] 4 8) 1
        = ({ ok := true, value := 20 }, dyn.mk [20, 30, 30, 40] 3 8)
      ∧ (dyn.mk [20, 30, 30, 40] 3 8).buf.take 3 ≠ [10, 30, 40] := by decide

/-- claim C7 (code_bug): cloning a length-4, capacity-8 array of 4-byte
elements `[10, 20, 30, 40]` must produce a buffer whose first 4 elements
equal the original's, but `dyn_clone` copies `self->len` bytes (4 bytes =
one element), so only element 0 is copied and element 1 of the clone is
uninitialised memory rather than `20`. -/
theorem dyn_clone_copies_bytes_not_elements :
    dyn_clone 4 (dyn.mk [10, 20, 30, 40] 4 8)
        = { buf := [some 10, none, none, none, none, none, none, none], len := 4, cap := 8 }
      ∧ (dyn_clone 4 (dyn.mk [10, 20, 30, 40] 4 8)).buf.getD 1 none ≠ some 20 := by decide

/-- claim C9, counterexample: on the one-byte string `"\xFF"` (byte 255)
the code adds the `char` read through a signed-char conversion, so the
accumulated value is `5381 * 33 - 1` modulo `2 ^ 64`, not the
`5381 * 33 + 255` that the claim's formula `h = h * 33 + byte` demands. -/
theorem hash_djb2_high_byte_counterexample : hash_djb2 [255] ≠ djb2_spec [255] := by decide

/-- claim C9, amended: `hash_djb2` accumulates `h = h * 33 + c (mod 2^64)`
over the bytes before the first NUL, where `c` is the byte reinterpreted
as a signed `char` (`c = b` for `b < 128`, `c = 2^64 - 256 + b`
otherwise); consequently the claim's unsigned-byte formula holds exactly
for strings whose bytes are all below 128. -/
theorem hash_djb2_signed_char_formula :
    (∀ str : List Nat, hash_djb2 str = (str.takeWhile (fun b => !(b == 0))).foldl
        (fun h b => (h * 33 + charToSize b) % USZ) 5381)
      ∧ (∀ str : List Nat, (∀ b ∈ str, 0 < b ∧ b < 128) →
          hash_djb2 str = djb2_spec str) := by
  constructor
  · exact hash_djb2_eq_takeWhile_foldl
  · intro str hmem
    have hall : str.takeWhile (fun b => !(b == 0)) = str := by
      rw [List.takeWhile_eq_self_iff]
      intro b hb
      simpa using (hmem b hb).1.ne.symm
    rw [hash_djb2_eq_takeWhile_foldl, hall, djb2_spec]
    exact foldl_charToSize_small str 5381 (fun b hb => (hmem b hb).2)

/-- witness for the amended claim C9 at the concrete string `"AB"`
(bytes 65, 66). -/
theorem hash_djb2_signed_char_formula_witness :
    hash_djb2 [65, 66] = djb2_spec [65, 66] :=
  hash_djb2_signed_char_formula.2 [65, 66] (by decide)

theorem probeLoop_spin_of_full {K V : Type} [Inhabited K] [Inhabited V]
    (eqf : K → K → Bool) (buf : List (map_entry K V)) (cap : Nat) (k : K)
    (hfull : ∀ i, i < cap → (buf.getD i default).active = true
      ∧ eqf (buf.getD i default).key k = false) :
    ∀ (fuel idx : Nat), idx < cap →
      probeLoop (some eqf) buf cap k idx fuel = Probe.spin := by
  intro fuel
  induction fuel with
  | zero => intro idx _; rfl
  | succ n ih =>
    intro idx hidx
    have h1 := hfull idx hidx
    simp only [probeLoop, h1.1, if_true, h1.2, Bool.false_eq_true, if_false]
    exact ih _ (Nat.mod_lt _ (by omega))

theorem getLoop_miss_of_full {K V : Type} [Inhabited K] [Inhabited V]
    (eqf : K → K → Bool) (buf : List (map_entry K V)) (cap : Nat) (k : K)
    (hfull : ∀ i, i < cap → (buf.getD i default).active = true
      ∧ eqf (buf.getD i default).key k = false) :
    ∀ (iters idx : Nat), idx < cap →
      ∃ j, j < cap ∧ getLoop (some eqf) buf cap k idx iters = Res.ok j := by
  intro iters
  induction iters with
  | zero => intro idx hidx; exact ⟨idx, hidx, rfl⟩
  | succ n ih =>
    intro idx hidx
    have h1 := hfull idx hidx
    obtain ⟨j, hj, hrun⟩ := ih ((idx + 1) % cap) (Nat.mod_lt _ (by omega))
    refine ⟨j, hj, ?_⟩
    simp only [getLoop, h1.1, if_true, h1.2, Bool.false_eq_true, if_false]
    exact hrun

/-- claim C4 (code_bug): `map_update` and `map_remove` probe with
`while (buf[index].active)` and only exit on an inactive slot or a key
match; on a table whose slots are all active and contain no matching key
(reachable: inserting `capacity` distinct keys fills the table without
triggering a resize, since the resize check runs before the insertion)
the loop cycles through the buffer forever.  Here: both calls return
`.spin` for every fuel, the fuel-indexed reading of an infinite loop;
`map_get` bounds its probe by `cap` and is total by construction. -/
theorem map_update_remove_diverge_on_full_table {K V : Type} [Inhabited K] [Inhabited V]
    (m : map K V) (hf : K → Nat) (eqf : K → K → Bool) (k : K) (v : V)
    (hh : m.hash = some hf) (hc : m.key_compare = some eqf)
    (hfull : ∀ i, i < m.entries.cap → (m.entries.buf.getD i default).active = true
      ∧ eqf (m.entries.buf.getD i default).key k = false)
    (hpos : 0 < m.entries.cap) :
    ∀ fuel, map_update fuel m k v = Res.spin ∧ map_remove fuel m k = Res.spin := by
  intro fuel
  have hrun := probeLoop_spin_of_full eqf m.entries.buf m.entries.cap k hfull fuel
    (hf k % m.entries.cap) (Nat.mod_lt _ hpos)
  constructor
  · simp only [map_update, hh, hc, hrun]
  · simp only [map_remove, hh, hc, hrun]

/-- witness for claim C4's theorem: the reachable full capacity-3 table
with keys 0, 1, 2 and the absent key 7, at fuel 5. -/
theorem map_update_remove_diverge_witness :
    map_update 5 fullT3 7 1 = Res.spin ∧ map_remove 5 fullT3 7 = Res.spin :=
  map_update_remove_diverge_on_full_table fullT3 idHash beqN 7 1 rfl rfl
    (by decide) (by decide) 5

/-- claim C10 (confirmed): `map_get` probes at most `cap` slots (its loop
is a bounded `for`), never writes the table (the embedding returns no
state because the C function contains no store through `self`), and on a
table whose slots are all active with no matching key it returns
`{.ok = false}`. -/
theorem map_get_full_table_miss {K V : Type} [Inhabited K] [Inhabited V]
    (m : map K V) (hf : K → Nat) (eqf : K → K → Bool) (k : K)
    (hh : m.hash = some hf) (hc : m.key_compare = some eqf)
    (hfull : ∀ i, i < m.entries.cap → (m.entries.buf.getD i default).active = true
      ∧ eqf (m.entries.buf.getD i default).key k = false)
    (hpos : 0 < m.entries.cap) :
    map_get m k = Res.ok { ok := false, value := default } := by
  obtain ⟨j, hj, hrun⟩ := getLoop_miss_of_full eqf m.entries.buf m.entries.cap k hfull
    m.entries.cap (hf k % m.entries.cap) (Nat.mod_lt _ hpos)
  have h1 := hfull j hj
  simp only [map_get, hh, hc, hrun, h1.1, if_true, h1.2, Bool.false_eq_true, if_false]

/-- witness for claim C10's theorem: the full capacity-3 table and the
absent key 7. -/
theorem map_get_full_table_miss_witness :
    map_get fullT3 7 = Res.ok { ok := false, value := default } :=
  map_get_full_table_miss fullT3 idHash beqN 7 rfl rfl (by decide) (by decide)

theorem map_insert_null_hash {K V : Type} [Inhabited K] [Inhabited V]
    (m : map K V) (k : K) (v : V) (hh : m.hash = none)
    (hlt : m.active_count < m.entries.cap) :
    ∀ fuel, 1 ≤ fuel → map_insert fuel m k v = Res.nullCall := by
  intro fuel hfuel
  cases fuel with
  | zero => omega
  | succ n =>
    have hno : ¬ (m.entries.cap ≤ m.active_count) := by omega
    simp only [map_insert, if_neg hno, hh]

theorem resizeLoop_cases {K V : Type} [Inhabited K] [Inhabited V] :
    ∀ (l : List (map_entry K V)) (fuel : Nat) (acc : map K V),
      acc.hash = none → acc.active_count < acc.entries.cap → l.length < fuel →
      resizeLoop fuel l acc = Res.nullCall ∨ resizeLoop fuel l acc = Res.ok acc := by
  intro l
  induction l with
  | nil =>
    intro fuel acc _ _ _
    right
    cases fuel <;> rfl
  | cons e rest ih =>
    intro fuel acc hh hlt hfuel
    cases fuel with
    | zero => simp at hfuel
    | succ n =>
      have hn : rest.length < n := by simpa using hfuel
      cases he : e.active with
      | true =>
        have hins := map_insert_null_hash acc e.key e.value hh hlt n (by omega)
        left
        simp only [resizeLoop, he, if_true, hins]
      | false =>
        rcases ih n acc hh hlt hn with h | h
        · left; simp only [resizeLoop, he, Bool.false_eq_true, if_false, h]
        · right; simp only [resizeLoop, he, Bool.false_eq_true, if_false, h]

/-- claim C1 (code_bug): when growth is triggered inside `map_insert`
(`active_count` has reached capacity) the claim requires a rebuilt table
of capacity `2*cap + 1` with every entry re-inserted and retrievable; but
`map_resize` builds `new_map` with a designated initialiser that omits
`.hash` and `.key_compare`, leaving them null, so re-inserting any active
entry (or, with none active, the caller's own retry of `self->hash`) calls
a null function pointer: the insert crashes instead of growing the
table. -/
theorem map_insert_growth_crashes {K V : Type} [Inhabited K] [Inhabited V]
    (m : map K V) (k : K) (v : V) (fuel : Nat)
    (htrigger : m.entries.cap ≤ m.active_count)
    (hfuel : m.entries.buf.length + 1 < fuel) :
    map_insert fuel m k v = Res.nullCall := by
  cases fuel with
  | zero => omega
  | succ n =>
    have hfresh1 : (resizeFresh K V m.entries.cap).hash = none := rfl
    have hfresh2 : (resizeFresh K V m.entries.cap).active_count
        < (resizeFresh K V m.entries.cap).entries.cap := by
      simp [resizeFresh, dyn_init_with_cap]
    have hlen : m.entries.buf.length < n := by omega
    rcases resizeLoop_cases m.entries.buf n (resizeFresh K V m.entries.cap)
        hfresh1 hfresh2 hlen with h | h
    · simp only [map_insert, if_pos htrigger, h]
    · simp only [map_insert, if_pos htrigger, h, hfresh1]

/-- witness for claim C1's theorem: inserting into the full capacity-3
table triggers growth and crashes. -/
theorem map_insert_growth_crashes_witness :
    map_insert 10 fullT3 9 9 = Res.nullCall :=
  map_insert_growth_crashes fullT3 9 9 10 (by decide) (by decide)

theorem resizeLoop_cases_weak {K V : Type} [Inhabited K] [Inhabited V] :
    ∀ (l : List (map_entry K V)) (fuel : Nat) (acc : map K V),
      acc.hash = none → acc.active_count < acc.entries.cap →
      resizeLoop fuel l acc = Res.spin ∨ resizeLoop fuel l acc = Res.nullCall
        ∨ resizeLoop fuel l acc = Res.ok acc := by
  intro l
  induction l with
  | nil =>
    intro fuel acc _ _
    right; right
    cases fuel <;> rfl
  | cons e rest ih =>
    intro fuel acc hh hlt
    cases fuel with
    | zero => left; rfl
    | succ n =>
      cases he : e.active with
      | true =>
        have hins := map_insert_null_hash acc e.key e.value hh hlt
        cases n with
        | zero => left; simp only [resizeLoop, he, if_true, map_insert]
        | succ n2 =>
          right; left
          simp only [resizeLoop, he, if_true, hins (n2 + 1) (by omega)]
      | false =>
        rcases ih n acc hh hlt with h | h | h
        · left; simp only [resizeLoop, he, Bool.false_eq_true, if_false, h]
        · right; left; simp only [resizeLoop, he, Bool.false_eq_true, if_false, h]
        · right; right; simp only [resizeLoop, he, Bool.false_eq_true, if_false, h]

theorem probeLoop_free_inactive {K V : Type} [Inhabited K] [Inhabited V]
    (eqc : Option (K → K → Bool)) (buf : List (map_entry K V)) (cap : Nat) (k : K) :
    ∀ (fuel idx j : Nat), probeLoop eqc buf cap k idx fuel = Probe.free j →
      (buf.getD j default).active = false := by
  intro fuel
  induction fuel with
  | zero => intro idx j h; simp [probeLoop] at h
  | succ n ih =>
    intro idx j h
    simp only [probeLoop] at h
    split at h
    · split at h
      · simp at h
      · split at h
        · simp at h
        · exact ih _ _ h
    · rename_i hact
      cases h
      rw [List.getD_eq_getElem?_getD]
      simpa using hact

theorem probeLoop_found_active {K V : Type} [Inhabited K] [Inhabited V]
    (eqc : Option (K → K → Bool)) (buf : List (map_entry K V)) (cap : Nat) (k : K) :
    ∀ (fuel idx j : Nat), probeLoop eqc buf cap k idx fuel = Probe.found j →
      (buf.getD j default).active = true := by
  intro fuel
  induction fuel with
  | zero => intro idx j h; simp [probeLoop] at h
  | succ n ih =>
    intro idx j h
    simp only [probeLoop] at h
    split at h
    · rename_i hact
      split at h
      · simp at h
      · split at h
        · cases h
          simpa [List.getD_eq_getElem?_getD] using hact
        · exact ih _ _ h
    · simp at h

theorem probeLoop_free_lt {K V : Type} [Inhabited K] [Inhabited V]
    (eqc : Option (K → K → Bool)) (buf : List (map_entry K V)) (cap : Nat) (k : K) :
    ∀ (fuel idx j : Nat), idx < cap → probeLoop eqc buf cap k idx fuel = Probe.free j →
      j < cap := by
  intro fuel
  induction fuel with
  | zero => intro idx j _ h; simp [probeLoop] at h
  | succ n ih =>
    intro idx j hidx h
    simp only [probeLoop] at h
    split at h
    · split at h
      · simp at h
      · split at h
        · simp at h
        · exact ih _ _ (Nat.mod_lt _ (by omega)) h
    · cases h
      exact hidx

theorem getD_active_lt {K V : Type} [Inhabited K] [Inhabited V]
    (buf : List (map_entry K V)) (j : Nat)
    (h : (buf.getD j default).active = true) : j < buf.length := by
  by_contra hge
  rw [List.getD_eq_default _ _ (by omega)] at h
  simp [default_entry_active] at h

theorem map_insert_ok_inv {K V : Type} [Inhabited K] [Inhabited V]
    (fuel : Nat) (m : map K V) (k : K) (v : V) (b : Bool) (m' : map K V)
    (h : map_insert fuel m k v = Res.ok (b, m')) :
    ∃ hf, m.hash = some hf ∧ m.active_count < m.entries.cap ∧
      ((b = false ∧ m' = m) ∨
       (b = true ∧ ∃ idx, probeLoop m.key_compare m.entries.buf m.entries.cap k
           (hf k % m.entries.cap) fuel = Probe.free idx ∧
         m' = { m with
                entries := { m.entries with
                  buf := m.entries.buf.set idx { key := k, value := v, active := true } }
                active_count := m.active_count + 1 })) := by
  cases fuel with
  | zero => simp [map_insert] at h
  | succ n =>
    by_cases hth : m.entries.cap ≤ m.active_count
    · exfalso
      have hfresh1 : (resizeFresh K V m.entries.cap).hash = none := rfl
      have hfresh2 : (resizeFresh K V m.entries.cap).active_count
          < (resizeFresh K V m.entries.cap).entries.cap := by
        simp [resizeFresh, dyn_init_with_cap]
      rcases resizeLoop_cases_weak m.entries.buf n (resizeFresh K V m.entries.cap)
          hfresh1 hfresh2 with hr | hr | hr <;>
        simp [map_insert, if_pos hth, hr, hfresh1] at h
    · have hlt : m.active_count < m.entries.cap := by omega
      cases hh : m.hash with
      | none => simp [map_insert, if_neg hth, hh] at h
      | some hf =>
        refine ⟨hf, rfl, hlt, ?_⟩
        cases hp : probeLoop m.key_compare m.entries.buf m.entries.cap k
            (hf k % m.entries.cap) (n + 1) with
        | spin => simp [map_insert, if_neg hth, hh, hp] at h
        | null => simp [map_insert, if_neg hth, hh, hp] at h
        | found i =>
          simp only [map_insert, if_neg hth, hh, hp, Res.ok.injEq, Prod.mk.injEq] at h
          exact Or.inl ⟨h.1.symm, h.2.symm⟩
        | free idx =>
          simp only [map_insert, if_neg hth, hh, hp, Res.ok.injEq, Prod.mk.injEq] at h
          exact Or.inr ⟨h.1.symm, idx, rfl, h.2.symm⟩

theorem map_update_ok_inv {K V : Type} [Inhabited K] [Inhabited V]
    (fuel : Nat) (m : map K V) (k : K) (v : V) (b : Bool) (m' : map K V)
    (h : map_update fuel m k v = Res.ok (b, m')) :
    ∃ hf, m.hash = some hf ∧
      ((b = false ∧ m' = m) ∨
       (b = true ∧ ∃ i, probeLoop m.key_compare m.entries.buf m.entries.cap k
           (hf k % m.entries.cap) fuel = Probe.found i ∧
         m' = { m with
                entries := { m.entries with
                  buf := m.entries.buf.set i
                    { m.entries.buf.getD i default with value := v } } })) := by
  cases hh : m.hash with
  | none => simp [map_update, hh] at h
  | some hf =>
    refine ⟨hf, rfl, ?_⟩
    cases hp : probeLoop m.key_compare m.entries.buf m.entries.cap k
        (hf k % m.entries.cap) fuel with
    | spin => simp [map_update, hh, hp] at h
    | null => simp [map_update, hh, hp] at h
    | found i =>
      simp only [map_update, hh, hp, Res.ok.injEq, Prod.mk.injEq] at h
      exact Or.inr ⟨h.1.symm, i, rfl, h.2.symm⟩
    | free i =>
      simp only [map_update, hh, hp, Res.ok.injEq, Prod.mk.injEq] at h
      exact Or.inl ⟨h.1.symm, h.2.symm⟩

theorem map_remove_ok_inv {K V : Type} [Inhabited K] [Inhabited V]
    (fuel : Nat) (m : map K V) (k : K) (b : Bool) (m' : map K V)
    (h : map_remove fuel m k = Res.ok (b, m')) :
    ∃ hf, m.hash = some hf ∧
      ((b = false ∧ m' = m) ∨
       (b = true ∧ ∃ i, probeLoop m.key_compare m.entries.buf m.entries.cap k
           (hf k % m.entries.cap) fuel = Probe.found i ∧
         m' = { m with
                entries := { m.entries with
                  buf := m.entries.buf.set i
                    { m.entries.buf.getD i default with active := false } }
                active_count := m.active_count - 1 })) := by
  cases hh : m.hash with
  | none => simp [map_remove, hh] at h
  | some hf =>
    refine ⟨hf, rfl, ?_⟩
    cases hp : probeLoop m.key_compare m.entries.buf m.entries.cap k
        (hf k % m.entries.cap) fuel with
    | spin => simp [map_remove, hh, hp] at h
    | null => simp [map_remove, hh, hp] at h
    | found i =>
      simp only [map_remove, hh, hp, Res.ok.injEq, Prod.mk.injEq] at h
      exact Or.inr ⟨h.1.symm, i, rfl, h.2.symm⟩
    | free i =>
      simp only [map_remove, hh, hp, Res.ok.injEq, Prod.mk.injEq] at h
      exact Or.inl ⟨h.1.symm, h.2.symm⟩

/-- claim C6 (confirmed): every failure report leaves the structure
unchanged: an out-of-range `dyn_remove` returns before the shift loop, a
duplicate-key `map_insert` returns `false` from inside the probe loop
before any store (a `false` return also implies the resize branch did not
run, because a triggered resize never reaches the probe: it crashes on the
null pointers of `new_map`), and `map_update`/`map_remove` return `false`
only when the probe exits at an inactive slot, before their stores. -/
theorem failure_paths_leave_state_unchanged :
    (∀ (T : Type) [Inhabited T] (d : dyn T) (i : Nat),
        (dyn_remove d i).1.ok = false → (dyn_remove d i).2 = d)
    ∧ (∀ (K V : Type) [Inhabited K] [Inhabited V] (fuel : Nat) (m : map K V) k v m',
        map_insert fuel m k v = Res.ok (false, m') → m' = m)
    ∧ (∀ (K V : Type) [Inhabited K] [Inhabited V] (fuel : Nat) (m : map K V) k v m',
        map_update fuel m k v = Res.ok (false, m') → m' = m)
    ∧ (∀ (K V : Type) [Inhabited K] [Inhabited V] (fuel : Nat) (m : map K V) k m',
        map_remove fuel m k = Res.ok (false, m') → m' = m) := by
  refine ⟨?_, ?_, ?_, ?_⟩
  · intro T _ d i hok
    cases ho : (dyn_at d i).ok with
    | false => simp [dyn_remove, ho]
    | true => simp [dyn_remove, ho] at hok
  · intro K V _ _ fuel m k v m' h
    obtain ⟨hf, _, _, hcase⟩ := map_insert_ok_inv fuel m k v false m' h
    rcases hcase with ⟨_, hm⟩ | ⟨hb, _⟩
    · exact hm
    · exact absurd hb (by simp)
  · intro K V _ _ fuel m k v m' h
    obtain ⟨hf, _, hcase⟩ := map_update_ok_inv fuel m k v false m' h
    rcases hcase with ⟨_, hm⟩ | ⟨hb, _⟩
    · exact hm
    · exact absurd hb (by simp)
  · intro K V _ _ fuel m k m' h
    obtain ⟨hf, _, hcase⟩ := map_remove_ok_inv fuel m k false m' h
    rcases hcase with ⟨_, hm⟩ | ⟨hb, _⟩
    · exact hm
    · exact absurd hb (by simp)

/-- witness for claim C6's theorem: an out-of-range `dyn_remove`, a
duplicate-key `map_insert` on `dupT` (key 1 is present), and
`map_update`/`map_remove` of the absent key 7 on `dupT`. -/
theorem failure_paths_witness :
    (dyn_remove (dyn.mk [1, 2] 2 4) 5).2 = dyn.mk [1, 2] 2 4
    ∧ dupT = dupT ∧ dupT = dupT ∧ dupT = dupT :=
  ⟨failure_paths_leave_state_unchanged.1 Nat (dyn.mk [1, 2] 2 4) 5 (by decide),
   failure_paths_leave_state_unchanged.2.1 Nat Nat 3 dupT 1 9 dupT (by rfl),
   failure_paths_leave_state_unchanged.2.2.1 Nat Nat 3 dupT 7 0 dupT (by rfl),
   failure_paths_leave_state_unchanged.2.2.2 Nat Nat 3 dupT 7 dupT (by rfl)⟩

theorem countActive_le_length {K V : Type} (buf : List (map_entry K V)) :
    countActive buf ≤ buf.length :=
  List.countP_le_length _

theorem countActive_set_keep {K V : Type} [Inhabited K] [Inhabited V]
    (buf : List (map_entry K V)) (i : Nat) (hi : i < buf.length) (a : map_entry K V)
    (hsame : a.active = (buf.getD i default).active) :
    countActive (buf.set i a) = countActive buf := by
  have hbal := countP_set_balance (fun e => e.active) default buf i hi a
  simp only [countActive]
  cases h : (buf.getD i default).active with
  | true =>
    rw [h] at hsame
    simp only [h, hsame, if_true] at hbal
    omega
  | false =>
    rw [h] at hsame
    simp only [h, hsame, Bool.false_eq_true, if_false] at hbal
    omega

theorem countActive_set_activate {K V : Type} [Inhabited K] [Inhabited V]
    (buf : List (map_entry K V)) (i : Nat) (hi : i < buf.length) (a : map_entry K V)
    (hold : (buf.getD i default).active = false) (hnew : a.active = true) :
    countActive (buf.set i a) = countActive buf + 1 := by
  have hbal := countP_set_balance (fun e => e.active) default buf i hi a
  simp only [countActive]
  simp only [hold, hnew, Bool.false_eq_true, if_false, if_true] at hbal
  omega

theorem countActive_set_deactivate {K V : Type} [Inhabited K] [Inhabited V]
    (buf : List (map_entry K V)) (i : Nat) (hi : i < buf.length) (a : map_entry K V)
    (hold : (buf.getD i default).active = true) (hnew : a.active = false) :
    countActive buf = countActive (buf.set i a) + 1 := by
  have hbal := countP_set_balance (fun e => e.active) default buf i hi a
  simp only [countActive]
  simp only [hold, hnew, Bool.false_eq_true, if_false, if_true] at hbal
  omega

/-- claim C8, counterexample: starting from a fresh capacity-97 table
whose keys all hash to bucket 0, the reachable sequence `insert 1`,
`insert 2`, `remove 1` leaves a table satisfying the invariant (key 2 held
by exactly one active slot, `active_count` equal to the number of active
slots), yet one more `map_insert` of the *same* key 2 installs it again
in the hole left by the removal — the probe stops at the first inactive
slot before ever seeing the active slot that already holds key 2 — so
after the operation two active slots hold key 2: the at-most-one-slot
part of the invariant is not preserved. -/
theorem insert_after_remove_duplicates_key :
    countActive c8m3.entries.buf = c8m3.active_count
    ∧ countKeySlots c8m3.entries.buf beqN 2 = 1
    ∧ map_insert 97 c8m3 2 99 = Res.ok (true, c8m4)
    ∧ countKeySlots c8m4.entries.buf beqN 2 = 2 :=
  ⟨by rfl, by rfl, by rfl, by rfl⟩

/-- claim C8, amended: every completing map operation preserves the
invariant that `active_count` equals the number of entries with
`active = true` in the backing buffer (and hence stays at most the
capacity), but the second half of the original claim fails: `map_insert`
does not preserve the at-most-one-active-slot-per-key property once a
removal has punched an inactive hole into a probe chain (see the
counterexample). -/
theorem map_ops_preserve_active_count {K V : Type} [Inhabited K] [Inhabited V] :
    (∀ (fuel : Nat) (m : map K V) (k : K) (v : V) (b : Bool) (m' : map K V),
        map_insert fuel m k v = Res.ok (b, m') →
        m.entries.buf.length = m.entries.cap →
        countActive m.entries.buf = m.active_count →
        m'.entries.buf.length = m'.entries.cap
          ∧ countActive m'.entries.buf = m'.active_count
          ∧ m'.active_count ≤ m'.entries.cap)
    ∧ (∀ (fuel : Nat) (m : map K V) (k : K) (v : V) (b : Bool) (m' : map K V),
        map_update fuel m k v = Res.ok (b, m') →
        m.entries.buf.length = m.entries.cap →
        countActive m.entries.buf = m.active_count →
        m'.entries.buf.length = m'.entries.cap
          ∧ countActive m'.entries.buf = m'.active_count
          ∧ m'.active_count ≤ m'.entries.cap)
    ∧ (∀ (fuel : Nat) (m : map K V) (k : K) (b : Bool) (m' : map K V),
        map_remove fuel m k = Res.ok (b, m') →
        m.entries.buf.length = m.entries.cap →
        countActive m.entries.buf = m.active_count →
        m'.entries.buf.length = m'.entries.cap
          ∧ countActive m'.entries.buf = m'.active_count
          ∧ m'.active_count ≤ m'.entries.cap) := by
  refine ⟨?_, ?_, ?_⟩
  · intro fuel m k v b m' h hlen hcA
    obtain ⟨hf, hh, hlt, hcase⟩ := map_insert_ok_inv fuel m k v b m' h
    rcases hcase with ⟨_, hm⟩ | ⟨_, idx, hp, hm⟩
    · rw [hm]
      have hle := countActive_le_length m.entries.buf
      exact ⟨hlen, hcA, by omega⟩
    · have hcappos : 0 < m.entries.cap := by omega
      have hidx : idx < m.entries.cap :=
        probeLoop_free_lt m.key_compare m.entries.buf m.entries.cap k fuel
          (hf k % m.entries.cap) idx (Nat.mod_lt _ hcappos) hp
      have hinact : (m.entries.buf.getD idx default).active = false :=
        probeLoop_free_inactive m.key_compare m.entries.buf m.entries.cap k fuel
          (hf k % m.entries.cap) idx hp
      have hcnt := countActive_set_activate m.entries.buf idx (by omega)
        { key := k, value := v, active := true } hinact rfl
      have hle := countActive_le_length
        (m.entries.buf.set idx { key := k, value := v, active := true })
      rw [hm]
      simp only [List.length_set] at hle
      refine ⟨?_, ?_, ?_⟩
      · show (m.entries.buf.set idx { key := k, value := v, active := true }).length
          = m.entries.cap
        simpa using hlen
      · show countActive (m.entries.buf.set idx { key := k, value := v, active := true })
          = m.active_count + 1
        omega
      · show m.active_count + 1 ≤ m.entries.cap
        omega
  · intro fuel m k v b m' h hlen hcA
    obtain ⟨hf, hh, hcase⟩ := map_update_ok_inv fuel m k v b m' h
    rcases hcase with ⟨_, hm⟩ | ⟨_, i, hp, hm⟩
    · rw [hm]
      have hle := countActive_le_length m.entries.buf
      exact ⟨hlen, hcA, by omega⟩
    · have hact : (m.entries.buf.getD i default).active = true :=
        probeLoop_found_active m.key_compare m.entries.buf m.entries.cap k fuel
          (hf k % m.entries.cap) i hp
      have hilt : i < m.entries.buf.length := getD_active_lt m.entries.buf i hact
      have hcnt := countActive_set_keep m.entries.buf i hilt
        { key := (m.entries.buf.getD i default).key, value := v,
          active := (m.entries.buf.getD i default).active } rfl
      have hle := countActive_le_length
        (m.entries.buf.set i { key := (m.entries.buf.getD i default).key, value := v, active := (m.entries.buf.getD i default).active })
      rw [hm]
      simp only [List.length_set] at hle
      refine ⟨?_, ?_, ?_⟩
      · show (m.entries.buf.set i { key := (m.entries.buf.getD i default).key, value := v, active := (m.entries.buf.getD i default).active }).length = m.entries.cap
        simpa using hlen
      · show countActive (m.entries.buf.set i { key := (m.entries.buf.getD i default).key, value := v, active := (m.entries.buf.getD i default).active }) = m.active_count
        omega
      · show m.active_count ≤ m.entries.cap
        omega
  · intro fuel m k b m' h hlen hcA
    obtain ⟨hf, hh, hcase⟩ := map_remove_ok_inv fuel m k b m' h
    rcases hcase with ⟨_, hm⟩ | ⟨_, i, hp, hm⟩
    · rw [hm]
      have hle := countActive_le_length m.entries.buf
      exact ⟨hlen, hcA, by omega⟩
    · have hact : (m.entries.buf.getD i default).active = true :=
        probeLoop_found_active m.key_compare m.entries.buf m.entries.cap k fuel
          (hf k % m.entries.cap) i hp
      have hilt : i < m.entries.buf.length := getD_active_lt m.entries.buf i hact
      have hcnt := countActive_set_deactivate m.entries.buf i hilt
        { key := (m.entries.buf.getD i default).key,
          value := (m.entries.buf.getD i default).value, active := false } hact rfl
      have hle := countActive_le_length
        (m.entries.buf.set i { key := (m.entries.buf.getD i default).key, value := (m.entries.buf.getD i default).value, active := false })
      rw [hm]
      simp only [List.length_set] at hle
      refine ⟨?_, ?_, ?_⟩
      · show (m.entries.buf.set i { key := (m.entries.buf.getD i default).key, value := (m.entries.buf.getD i default).value, active := false }).length = m.entries.cap
        simpa using hlen
      · show countActive (m.entries.buf.set i { key := (m.entries.buf.getD i default).key, value := (m.entries.buf.getD i default).value, active := false }) = m.active_count - 1
        omega
      · show m.active_count - 1 ≤ m.entries.cap
        omega

/-- witness for the amended claim C8: inserting the fresh key 5 into the
capacity-2 table `dupT` preserves the count invariant. -/
theorem map_ops_preserve_active_count_witness :
    (mapOfRes (map_insert 3 dupT 5 9) dupT).entries.buf.length
        = (mapOfRes (map_insert 3 dupT 5 9) dupT).entries.cap
      ∧ countActive (mapOfRes (map_insert 3 dupT 5 9) dupT).entries.buf
        = (mapOfRes (map_insert 3 dupT 5 9) dupT).active_count
      ∧ (mapOfRes (map_insert 3 dupT 5 9) dupT).active_count
        ≤ (mapOfRes (map_insert 3 dupT 5 9) dupT).entries.cap :=
  map_ops_preserve_active_count.1 3 dupT 5 9 true
    (mapOfRes (map_insert 3 dupT 5 9) dupT) (by rfl) (by rfl) (by rfl)

theorem mod_shift (cap s e : Nat) : ((s + 1) % cap + e) % cap = (s + (e + 1)) % cap := by
  rw [Nat.mod_add_mod]
  congr 1
  omega

theorem slotAt_shift {K V : Type} [Inhabited K] [Inhabited V]
    (buf : List (map_entry K V)) (cap s e : Nat) :
    slotAt buf cap ((s + 1) % cap) e = slotAt buf cap s (e + 1) := by
  simp only [slotAt, mod_shift]

theorem slotAt_zero {K V : Type} [Inhabited K] [Inhabited V]
    (buf : List (map_entry K V)) (cap s : Nat) (hs : s < cap) :
    slotAt buf cap s 0 = buf.getD s default := by
  simp only [slotAt, Nat.add_zero, Nat.mod_eq_of_lt hs]

theorem probeLoop_free_path {K V : Type} [Inhabited K] [Inhabited V]
    (eqf : K → K → Bool) (buf : List (map_entry K V)) (cap : Nat) (k : K) :
    ∀ (e0 start fuel : Nat), start < cap → e0 < fuel →
      (∀ e, e < e0 → (slotAt buf cap start e).active = true
        ∧ eqf (slotAt buf cap start e).key k = false) →
      (slotAt buf cap start e0).active = false →
      probeLoop (some eqf) buf cap k start fuel = Probe.free ((start + e0) % cap) := by
  intro e0
  induction e0 with
  | zero =>
    intro start fuel hs hf _ h0
    cases fuel with
    | zero => omega
    | succ n =>
      rw [slotAt_zero buf cap start hs] at h0
      simp only [probeLoop, h0, Bool.false_eq_true, if_false]
      rw [Nat.add_zero, Nat.mod_eq_of_lt hs]
  | succ d ih =>
    intro start fuel hs hfuel hpath h0
    cases fuel with
    | zero => omega
    | succ n =>
      have h1 := hpath 0 (by omega)
      rw [slotAt_zero buf cap start hs] at h1
      have hrec := ih ((start + 1) % cap) n (Nat.mod_lt _ (by omega)) (by omega)
        (fun e he => by rw [slotAt_shift]; exact hpath (e + 1) (by omega))
        (by rw [slotAt_shift]; exact h0)
      simp only [probeLoop, h1.1, if_true, h1.2, Bool.false_eq_true, if_false]
      rw [hrec, mod_shift]

theorem getLoop_finds {K V : Type} [Inhabited K] [Inhabited V]
    (eqf : K → K → Bool) (buf : List (map_entry K V)) (cap : Nat) (k : K) :
    ∀ (d start iters : Nat), start < cap → d < iters →
      (∀ e, e < d → (slotAt buf cap start e).active = true
        ∧ eqf (slotAt buf cap start e).key k = false) →
      (slotAt buf cap start d).active = true →
      eqf (slotAt buf cap start d).key k = true →
      getLoop (some eqf) buf cap k start iters = Res.ok ((start + d) % cap) := by
  intro d
  induction d with
  | zero =>
    intro start iters hs hit _ hact heq
    cases iters with
    | zero => omega
    | succ n =>
      rw [slotAt_zero buf cap start hs] at hact heq
      simp only [getLoop, hact, if_true, heq]
      rw [Nat.add_zero, Nat.mod_eq_of_lt hs]
  | succ d ih =>
    intro start iters hs hit hpath hact heq
    cases iters with
    | zero => omega
    | succ n =>
      have h1 := hpath 0 (by omega)
      rw [slotAt_zero buf cap start hs] at h1
      have hrec := ih ((start + 1) % cap) n (Nat.mod_lt _ (by omega)) (by omega)
        (fun e he => by rw [slotAt_shift]; exact hpath (e + 1) (by omega))
        (by rw [slotAt_shift]; exact hact)
        (by rw [slotAt_shift]; exact heq)
      simp only [getLoop, h1.1, if_true, h1.2, Bool.false_eq_true, if_false]
      rw [hrec, mod_shift]

theorem exists_inactive_offset {K V : Type} [Inhabited K] [Inhabited V]
    (buf : List (map_entry K V)) (cap start : Nat)
    (hlen : buf.length = cap) (hs : start < cap)
    (hcnt : countActive buf < cap) :
    ∃ t, t < cap ∧ (slotAt buf cap start t).active = false := by
  obtain ⟨i, hi, hpi⟩ := exists_false_of_countP_lt (fun e => e.active) default buf
    (by rw [hlen]; exact hcnt)
  rw [hlen] at hi
  by_cases hc : start ≤ i
  · refine ⟨i - start, by omega, ?_⟩
    have hsum : start + (i - start) = i := by omega
    simp only [slotAt, hsum, Nat.mod_eq_of_lt hi]
    exact hpi
  · refine ⟨cap + i - start, by omega, ?_⟩
    have hsum : start + (cap + i - start) = cap + i := by omega
    simp only [slotAt, hsum, Nat.add_mod_left, Nat.mod_eq_of_lt hi]
    exact hpi

theorem probeLoop_reaches_free {K V : Type} [Inhabited K] [Inhabited V]
    (eqf : K → K → Bool) (buf : List (map_entry K V)) (cap : Nat) (k : K)
    (start fuel : Nat)
    (hlen : buf.length = cap) (hs : start < cap) (hfuel : cap ≤ fuel)
    (hcnt : countActive buf < cap)
    (hkeys : ∀ i, i < cap → (buf.getD i default).active = true →
      eqf (buf.getD i default).key k = false) :
    ∃ e0, e0 < cap
      ∧ (∀ e, e < e0 → (slotAt buf cap start e).active = true
          ∧ eqf (slotAt buf cap start e).key k = false)
      ∧ (slotAt buf cap start e0).active = false
      ∧ probeLoop (some eqf) buf cap k start fuel = Probe.free ((start + e0) % cap) := by
  obtain ⟨t, ht, hti⟩ := exists_inactive_offset buf cap start hlen hs hcnt
  have hex : ∃ e, (slotAt buf cap start e).active = false := ⟨t, hti⟩
  have he0le : Nat.find hex ≤ t := Nat.find_min' hex hti
  have he0 : (slotAt buf cap start (Nat.find hex)).active = false := Nat.find_spec hex
  have hact : ∀ e, e < Nat.find hex → (slotAt buf cap start e).active = true := by
    intro e he
    have hne := Nat.find_min hex he
    cases h : (slotAt buf cap start e).active with
    | true => rfl
    | false => exact absurd h hne
  have hpath : ∀ e, e < Nat.find hex → (slotAt buf cap start e).active = true
      ∧ eqf (slotAt buf cap start e).key k = false := by
    intro e he
    have ha := hact e he
    refine ⟨ha, ?_⟩
    have hofs : (start + e) % cap < cap := Nat.mod_lt _ (by omega)
    have := hkeys ((start + e) % cap) hofs (by rw [slotAt] at ha; exact ha)
    rw [slotAt]
    exact this
  exact ⟨Nat.find hex, by omega, hpath, he0,
    probeLoop_free_path eqf buf cap k (Nat.find hex) start fuel hs (by omega) hpath he0⟩

theorem map_insert_step {K V : Type} [Inhabited K] [Inhabited V]
    (hfK : K → Nat) (eqf : K → K → Bool) (cap : Nat) (m : map K V)
    (done : List (K × V)) (k : K) (v : V)
    (TG : TableGood hfK eqf cap m done)
    (hnew : ∀ p ∈ done, eqf p.1 k = false)
    (hroom : done.length < cap) :
    ∃ m', map_insert cap m k v = Res.ok (true, m')
      ∧ TableGood hfK eqf cap m' (done ++ [(k, v)]) := by
  have hpos := TG.hpos
  have hstart : hfK k % cap < cap := Nat.mod_lt _ hpos
  have hkeys : ∀ i, i < cap → (m.entries.buf.getD i default).active = true →
      eqf (m.entries.buf.getD i default).key k = false := by
    intro i hi hact
    obtain ⟨p, hp, hentry⟩ := TG.hrepr i hi hact
    rw [hentry]
    exact hnew p hp
  obtain ⟨e0, he0cap, hpath, hinact, hrun⟩ := probeLoop_reaches_free eqf m.entries.buf cap k
    (hfK k % cap) cap TG.hlen hstart (Nat.le_refl cap) (by rw [TG.hcountA]; exact hroom) hkeys
  obtain ⟨n, rfl⟩ : ∃ n, cap = n + 1 := ⟨cap - 1, by omega⟩
  rw [slotAt] at hinact
  have hs : (hfK k % (n + 1) + e0) % (n + 1) < n + 1 := Nat.mod_lt _ (by omega)
  have hslen : (hfK k % (n + 1) + e0) % (n + 1) < m.entries.buf.length := by
    rw [TG.hlen]
    exact hs
  have hnores : ¬ (m.entries.cap ≤ m.active_count) := by
    rw [TG.hcap, TG.hcount]
    omega
  have hkeep : ∀ j, (m.entries.buf.getD j default).active = true →
      (m.entries.buf.set ((hfK k % (n + 1) + e0) % (n + 1))
          { key := k, value := v, active := true }).getD j default
        = m.entries.buf.getD j default := by
    intro j hj
    refine getD_set_ne ?_ _ _
    intro he
    rw [he] at hinact
    rw [hinact] at hj
    simp at hj
  refine ⟨{ m with
      entries := { m.entries with
        buf := m.entries.buf.set ((hfK k % (n + 1) + e0) % (n + 1))
          { key := k, value := v, active := true } }
      active_count := m.active_count + 1 }, ?_, ?_⟩
  · have hnores2 : ¬ (n + 1 ≤ m.active_count) := by
      rw [TG.hcount]
      omega
    simp only [map_insert, TG.hcap, if_neg hnores2, TG.hhash, TG.heqc, hrun]
  · refine ⟨TG.hhash, TG.heqc, TG.hcap, ?_, hpos, ?_, ?_, ?_, ?_⟩
    · show (m.entries.buf.set ((hfK k % (n + 1) + e0) % (n + 1))
          { key := k, value := v, active := true }).length = n + 1
      rw [List.length_set, TG.hlen]
    · show m.active_count + 1 = (done ++ [(k, v)]).length
      rw [TG.hcount]
      simp
    · show countActive (m.entries.buf.set ((hfK k % (n + 1) + e0) % (n + 1))
          { key := k, value := v, active := true }) = (done ++ [(k, v)]).length
      rw [countActive_set_activate m.entries.buf _ hslen _ hinact rfl, TG.hcountA]
      simp
    · intro i hi hact'
      by_cases hij : ((hfK k % (n + 1) + e0) % (n + 1)) = i
      · refine ⟨(k, v), by simp, ?_⟩
        show (m.entries.buf.set ((hfK k % (n + 1) + e0) % (n + 1))
            { key := k, value := v, active := true }).getD i default = _
        rw [← hij, getD_set_self hslen]
      · have hact2 : (m.entries.buf.getD i default).active = true := by
          have := hact'
          rw [show ({ m with
              entries := { m.entries with
                buf := m.entries.buf.set ((hfK k % (n + 1) + e0) % (n + 1))
                  { key := k, value := v, active := true } }
              active_count := m.active_count + 1 } : map K V).entries.buf
            = m.entries.buf.set ((hfK k % (n + 1) + e0) % (n + 1))
              { key := k, value := v, active := true } from rfl,
            getD_set_ne hij] at this
          exact this
        obtain ⟨p, hp, hentry⟩ := TG.hrepr i hi hact2
        refine ⟨p, by simp [hp], ?_⟩
        show (m.entries.buf.set ((hfK k % (n + 1) + e0) % (n + 1))
            { key := k, value := v, active := true }).getD i default = _
        rw [getD_set_ne hij]
        exact hentry
    · intro p hp
      rcases List.mem_append.mp hp with hpd | hps
      · obtain ⟨d, hd, htar, hpth⟩ := TG.hpath p hpd
        rw [slotAt] at htar
        have htaract : (m.entries.buf.getD ((hfK p.1 % (n + 1) + d) % (n + 1))
            default).active = true := by
          rw [htar]
        refine ⟨d, hd, ?_, ?_⟩
        · show slotAt (m.entries.buf.set ((hfK k % (n + 1) + e0) % (n + 1))
            { key := k, value := v, active := true }) (n + 1) (hfK p.1 % (n + 1)) d = _
          rw [slotAt, hkeep _ htaract]
          exact htar
        · intro e he
          have h2 := hpth e he
          rw [slotAt] at h2
          show (slotAt (m.entries.buf.set ((hfK k % (n + 1) + e0) % (n + 1))
              { key := k, value := v, active := true }) (n + 1) (hfK p.1 % (n + 1)) e).active
              = true
            ∧ eqf (slotAt (m.entries.buf.set ((hfK k % (n + 1) + e0) % (n + 1))
              { key := k, value := v, active := true }) (n + 1) (hfK p.1 % (n + 1)) e).key p.1
              = false
          rw [slotAt, hkeep _ h2.1]
          exact h2
      · rw [List.mem_singleton] at hps
        subst hps
        refine ⟨e0, he0cap, ?_, ?_⟩
        · show slotAt (m.entries.buf.set ((hfK k % (n + 1) + e0) % (n + 1))
            { key := k, value := v, active := true }) (n + 1) (hfK k % (n + 1)) e0 = _
          rw [slotAt, getD_set_self hslen]
        · intro e he
          have h2 := hpath e he
          rw [slotAt] at h2
          show (slotAt (m.entries.buf.set ((hfK k % (n + 1) + e0) % (n + 1))
              { key := k, value := v, active := true }) (n + 1) (hfK k % (n + 1)) e).active
              = true
            ∧ eqf (slotAt (m.entries.buf.set ((hfK k % (n + 1) + e0) % (n + 1))
              { key := k, value := v, active := true }) (n + 1) (hfK k % (n + 1)) e).key k
              = false
          rw [slotAt, hkeep _ h2.1]
          exact h2

theorem insertAll_good {K V : Type} [Inhabited K] [Inhabited V]
    (hfK : K → Nat) (eqf : K → K → Bool) (cap : Nat) :
    ∀ (todo done : List (K × V)) (m : map K V) (acc : Nat),
      TableGood hfK eqf cap m done →
      keysDistinct eqf (done ++ todo) →
      done.length + todo.length ≤ cap →
      ∃ m', insertAll cap m todo acc = Res.ok (acc + todo.length, m')
        ∧ TableGood hfK eqf cap m' (done ++ todo) := by
  intro todo
  induction todo with
  | nil =>
    intro done m acc TG _ _
    refine ⟨m, ?_, by simpa using TG⟩
    cases cap <;> simp [insertAll]
  | cons p rest ih =>
    intro done m acc TG hdist hlen
    obtain ⟨k, v⟩ := p
    have hnew : ∀ q ∈ done, eqf q.1 k = false := by
      rw [keysDistinct, List.pairwise_append] at hdist
      intro q hq
      exact (hdist.2.2 q hq (k, v) (List.mem_cons_self _ _)).1
    obtain ⟨m1, hins, TG1⟩ := map_insert_step hfK eqf cap m done k v TG hnew
      (by simp at hlen; omega)
    have hdist1 : keysDistinct eqf ((done ++ [(k, v)]) ++ rest) := by
      rw [List.append_assoc]
      simpa using hdist
    have hlen1 : (done ++ [(k, v)]).length + rest.length ≤ cap := by
      simp at hlen ⊢
      omega
    obtain ⟨m', hrun, TG'⟩ := ih (done ++ [(k, v)]) m1 (acc + 1) TG1 hdist1 hlen1
    have hacc : acc + 1 + rest.length = acc + (rest.length + 1) := by omega
    rw [hacc] at hrun
    refine ⟨m', ?_, ?_⟩
    · show insertAll cap m ((k, v) :: rest) acc = Res.ok (acc + (rest.length + 1), m')
      cases cap with
      | zero =>
        exfalso
        exact absurd TG.hpos (by omega)
      | succ n =>
        simp only [insertAll, hins, if_true]
        exact hrun
    · rw [List.append_assoc] at TG'
      simpa using TG'

theorem getD_replicate_default {α : Type _} [Inhabited α] (n i : Nat) :
    (List.replicate n (default : α)).getD i default = default := by
  rw [List.getD_eq_getElem?_getD, List.getElem?_replicate]
  split <;> rfl

theorem tableGood_init {K V : Type} [Inhabited K] [Inhabited V]
    (hfK : K → Nat) (eqf : K → K → Bool) :
    TableGood hfK eqf 97 (map_init hfK eqf : map K V) [] := by
  refine ⟨rfl, rfl, rfl, by simp [map_init, dyn_init_with_cap], by omega, rfl, ?_, ?_, ?_⟩
  · show countActive (List.replicate 97 (default : map_entry K V)) = 0
    exact countActive_replicate K V 97
  · intro i _ hact
    rw [show (map_init hfK eqf : map K V).entries.buf
        = List.replicate 97 (default : map_entry K V) from rfl,
      getD_replicate_default] at hact
    rw [default_entry_active] at hact
    cases hact
  · intro p hp
    cases hp

theorem map_get_after_inserts {K V : Type} [Inhabited K] [Inhabited V]
    (hfK : K → Nat) (eqf : K → K → Bool) (cap : Nat) (m : map K V)
    (done : List (K × V)) (TG : TableGood hfK eqf cap m done)
    (p : K × V) (hp : p ∈ done) (hrefl : eqf p.1 p.1 = true) :
    map_get m p.1
      = Res.ok { ok := true, value := { key := p.1, value := p.2, active := true } } := by
  obtain ⟨d, hd, htar, hpth⟩ := TG.hpath p hp
  have hstart : hfK p.1 % cap < cap := Nat.mod_lt _ TG.hpos
  have hact : (slotAt m.entries.buf cap (hfK p.1 % cap) d).active = true := by
    rw [htar]
  have heq : eqf (slotAt m.entries.buf cap (hfK p.1 % cap) d).key p.1 = true := by
    rw [htar]
    exact hrefl
  have hrun := getLoop_finds eqf m.entries.buf cap p.1 d (hfK p.1 % cap) cap
    hstart hd hpth hact heq
  rw [slotAt] at htar
  simp only [map_get, TG.hhash, TG.heqc, TG.hcap, hrun, htar, if_true, hrefl]

/-- claim C2 (confirmed): for every sequence of `map_insert` calls on a
fresh table with pairwise distinct keys (under the supplied comparison
function, which recognises each key as equal to itself) whose number does
not exceed the initial capacity 97, every insert succeeds (no resize is
triggered, since the resize check `active_count >= cap` stays false), a
subsequent `map_get` on each inserted key returns `ok = true` carrying the
inserted value, and `active_count` equals the number of successful
inserts. -/
theorem insert_sequence_then_get {K V : Type} [Inhabited K] [Inhabited V]
    (hfK : K → Nat) (eqf : K → K → Bool) (ps : List (K × V))
    (hdist : keysDistinct eqf ps) (hrefl : keysRefl eqf ps)
    (hlen : ps.length ≤ 97) :
    ∃ m', insertAll 97 (map_init hfK eqf) ps 0 = Res.ok (ps.length, m')
      ∧ m'.active_count = ps.length
      ∧ ∀ p ∈ ps, map_get m' p.1
          = Res.ok { ok := true, value := { key := p.1, value := p.2, active := true } } := by
  obtain ⟨m', hrun, TG⟩ := insertAll_good hfK eqf 97 ps [] (map_init hfK eqf) 0
    (tableGood_init hfK eqf) (by simpa using hdist) (by simpa using hlen)
  refine ⟨m', by simpa using hrun, by simpa using TG.hcount, fun p hp => ?_⟩
  exact map_get_after_inserts hfK eqf 97 m' ps (by simpa using TG) p hp (hrefl p hp)

/-- witness for claim C2's theorem: inserting the pairs `(5, 50)` and
`(3, 30)` under the identity hash. -/
theorem insert_sequence_then_get_witness :
    ∃ m', insertAll 97 (map_init idHash beqN) [(5, 50), (3, 30)] 0 = Res.ok (2, m')
      ∧ m'.active_count = 2
      ∧ ∀ p ∈ [(5, 50), (3, 30)], map_get m' p.1
          = Res.ok { ok := true, value := { key := p.1, value := p.2, active := true } } :=
  insert_sequence_then_get idHash beqN [(5, 50), (3, 30)]
    (by simp [keysDistinct, beqN]) (by simp [keysRefl, beqN]) (by simp)

theorem keysDistinct_pairs97 : keysDistinct beqN pairs97 := by
  rw [keysDistinct, pairs97, List.pairwise_map]
  refine (List.pairwise_lt_range 97).imp ?_
  intro a b hab
  constructor <;> (simp only [beqN, beq_eq_false_iff_ne]; omega)

/-- claim C5, counterexample: initialise a capacity-97 table and insert
the 97 distinct keys 0..96 (identity hash, values `key + 1000`).  The
claim asserts the 97th insert makes the capacity `97 * 2 + 1 = 195`; in
the code the resize check `active_count >= cap` runs *before* the
insertion, with `active_count = 96 < 97`, so no resize is triggered: all
97 inserts succeed and the capacity is still 97, not 195.  (Growth would
trigger only on a 98th insert, and then it crashes: claim C1.) -/
theorem insert_97_keys_capacity_stays_97 :
    capOfRes (insertAll 97 (map_init idHash beqN) pairs97 0) = 97
      ∧ (97 : Nat) ≠ 195 := by
  obtain ⟨m', hrun, TG⟩ := insertAll_good idHash beqN 97 pairs97 []
    (map_init idHash beqN) 0 (tableGood_init idHash beqN)
    (by simpa using keysDistinct_pairs97) (by simp [pairs97])
  refine ⟨?_, by omega⟩
  rw [hrun]
  simp only [capOfRes]
  exact TG.hcap

/-- claim C5, amended: from a fresh capacity-97 table, inserting up to and
including 97 distinct keys (per the supplied comparison function, which
recognises each key as equal to itself) never triggers a resize: every
insert succeeds, the capacity afterwards is still 97 (not 195),
`active_count` equals the number of keys, and every inserted key
retrieves its original value.  In particular both halves of the scenario
hold with capacity 97: after 96 inserts and after the 97th insert. -/
theorem cap97_insert_scenario {K V : Type} [Inhabited K] [Inhabited V]
    (hfK : K → Nat) (eqf : K → K → Bool) (ps : List (K × V))
    (hdist : keysDistinct eqf ps) (hrefl : keysRefl eqf ps)
    (hlen : ps.length ≤ 97) :
    ∃ m', insertAll 97 (map_init hfK eqf) ps 0 = Res.ok (ps.length, m')
      ∧ m'.entries.cap = 97
      ∧ m'.active_count = ps.length
      ∧ ∀ p ∈ ps, map_get m' p.1
          = Res.ok { ok := true, value := { key := p.1, value := p.2, active := true } } := by
  obtain ⟨m', hrun, TG⟩ := insertAll_good hfK eqf 97 ps [] (map_init hfK eqf) 0
    (tableGood_init hfK eqf) (by simpa using hdist) (by simpa using hlen)
  exact ⟨m', by simpa using hrun, TG.hcap, by simpa using TG.hcount,
    fun p hp => map_get_after_inserts hfK eqf 97 m' ps (by simpa using TG) p hp (hrefl p hp)⟩

/-- witness for the amended claim C5 at the concrete 97 pairs
`(i, i + 1000)` with the identity hash. -/
theorem cap97_insert_scenario_witness :
    ∃ m', insertAll 97 (map_init idHash beqN) pairs97 0 = Res.ok (pairs97.length, m')
      ∧ m'.entries.cap = 97
      ∧ m'.active_count = pairs97.length
      ∧ ∀ p ∈ pairs97, map_get m' p.1
          = Res.ok { ok := true, value := { key := p.1, value := p.2, active := true } } :=
  cap97_insert_scenario idHash beqN pairs97 keysDistinct_pairs97
    (fun p _ => by simp [beqN]) (by simp [pairs97])

end Commons
